import Mathlib

/-!
Shallow embedding of `src/compress.py` (FastStray trajectory compression).

A trajectory sample is `(x, y, t) : Rat × Rat × Rat` (longitude, latitude,
timestamp).  Machine floats are modelled as exact rationals; the NaN and
raised-error behaviour of the degenerate numeric paths is modelled
explicitly (`Option`, `PearsonOut`, `KsiOut`).
-/

namespace FastStray

/-- Window construction, `FastStray.get_params_idx`:
`np.arange(max(0, idx - value), min(idx + value, sample_size))`.
Truncated `Nat` subtraction `idx - value` equals `max 0 (idx - value)`
over the integers. -/
def get_params_idx (idx value sampleSize : Nat) : List Nat :=
  List.range' (idx - value) (min (idx + value) sampleSize - (idx - value))

/-- Spatial columns, `self.position[:, :self.space]` with `space = 2`. -/
def spatial_position (position : List (Rat × Rat × Rat)) : List (Rat × Rat) :=
  position.map (fun p => (p.1, p.2.1))

/-- Temporal column, `self.position[:, self.space]`. -/
def temporal_position (position : List (Rat × Rat × Rat)) : List Rat :=
  position.map (fun p => p.2.2)

/-- Arithmetic mean of a list of rationals (`np.mean`); the empty list is
handled by the callers. -/
def meanL (l : List Rat) : Rat := l.sum / l.length

/-- Mean spatial position over a window, `FastStray.mean_position`:
`self.spatial_position[index, :].mean(axis=0)`.  The value `none` models
numpy's NaN result for the mean of an empty slice. -/
def mean_position (spatial : List (Rat × Rat)) (index : List Nat) :
    Option (Rat × Rat) :=
  if index.isEmpty then none
  else some (meanL (index.map fun j => (spatial.getD j default).1),
             meanL (index.map fun j => (spatial.getD j default).2))

/-- Total variant of `mean_position`, used on the code path where every
window is nonempty (half-width at least 1); it agrees with `mean_position`
there (`moving_average_eq_map_some`). -/
def mean_positionP (spatial : List (Rat × Rat)) (index : List Nat) : Rat × Rat :=
  (meanL (index.map fun j => (spatial.getD j default).1),
   meanL (index.map fun j => (spatial.getD j default).2))

/-- Smoothing stage, `FastStray.moving_average`: the smoothed spatial
sequence paired with the unchanged temporal sequence. -/
def moving_average (position : List (Rat × Rat × Rat)) (alpha : Nat) :
    List (Option (Rat × Rat)) × List Rat :=
  ((List.range position.length).map
      (fun i => mean_position (spatial_position position)
        (get_params_idx i alpha position.length)),
   temporal_position position)

/-- Total variant of the smoothing stage (all windows nonempty). -/
def moving_averageP (position : List (Rat × Rat × Rat)) (alpha : Nat) :
    List (Rat × Rat) :=
  (List.range position.length).map
    (fun i => mean_positionP (spatial_position position)
      (get_params_idx i alpha position.length))

/-- Outcome of `scipy.stats.pearsonr(x, y)[0] ** 2` on exact data:
`err` models the `ValueError` raised for inputs of length below 2,
`nan` models the NaN returned (with `ConstantInputWarning`) for a
constant input, and `rsq q` is the squared correlation coefficient. -/
inductive PearsonOut where
  | err : PearsonOut
  | nan : PearsonOut
  | rsq : Rat → PearsonOut
deriving DecidableEq

/-- Constancy test used by `scipy.stats.pearsonr`: `(x == x[0]).all()`. -/
def allEqHead (l : List Rat) : Bool := l.all (fun a => a = l.getD 0 0)

/-- Sum of squared deviations from a given center `m`. -/
def devSqM (m : Rat) (l : List Rat) : Rat := (l.map (fun x => (x - m) ^ 2)).sum

/-- Sum of products of deviations from the given centers. -/
def covSumM (mx my : Rat) (x y : List Rat) : Rat :=
  ((x.zip y).map (fun p => (p.1 - mx) * (p.2 - my))).sum

/-- Sum of squared deviations from the mean. -/
def devSq (l : List Rat) : Rat := devSqM (meanL l) l

/-- Sum of products of deviations from the respective means. -/
def covSum (x y : List Rat) : Rat := covSumM (meanL x) (meanL y) x y

/-- Modelled from the spec: `src/compress.py` imports `pearsonr` from
`scipy.stats`, which is not part of this repository.  Following the spec's
description ("compute the Pearson correlation coefficient between that
axis's values and the temporal values over the neighborhood; square it"),
the squared coefficient is `covSum² / (devSq x · devSq y)`; fewer than 2
samples raise an error and a constant input yields NaN. -/
def pearsonRsq (x y : List Rat) : PearsonOut :=
  if x.length < 2 then .err
  else if allEqHead x || allEqHead y then .nan
  else .rsq (covSum x y ^ 2 / (devSq x * devSq y))

/-- Outcome of `FastStray.ksi_func` on exact data: `err` models a raised
`ValueError`, `nan` a NaN score, `inf` an infinite score (division of 1 by
a squared correlation equal to 0), and `val q` a finite score. -/
inductive KsiOut where
  | err : KsiOut
  | nan : KsiOut
  | inf : KsiOut
  | val : Rat → KsiOut
deriving DecidableEq

/-- Scoring function `FastStray.ksi_func`: with `ppx, ppy = pp.T`, the
score is `1 / corr(ppx, tt)² + 1 / corr(ppy, tt)²`.  NaN dominates
infinity under float addition, hence the order of the cases. -/
def ksi_func (pp : List (Rat × Rat)) (tt : List Rat) : KsiOut :=
  match pearsonRsq (pp.map Prod.fst) tt, pearsonRsq (pp.map Prod.snd) tt with
  | .err, _ => .err
  | _, .err => .err
  | .nan, _ => .nan
  | _, .nan => .nan
  | .rsq a, .rsq b => if a = 0 ∨ b = 0 then .inf else .val (1 / a + 1 / b)

/-- Row selection `FastStray.sub_spatial_array`:
`self.filtering_spatial_position[index, :]`. -/
def sub_spatial_array (fsp : List (Rat × Rat)) (index : List Nat) :
    List (Rat × Rat) :=
  index.map (fun j => fsp.getD j default)

/-- Row selection `FastStray.sub_temporal_array`:
`self.filtering_temporal_position[index, :]`. -/
def sub_temporal_array (ftp : List Rat) (index : List Nat) : List Rat :=
  index.map (fun j => ftp.getD j 0)

/-- Scoring stage `FastStray.update_coeff`: one `ksi_func` application per
index, on the window of half-width `beta`. -/
def update_coeff (fsp : List (Rat × Rat)) (ftp : List Rat) (beta : Nat) :
    List KsiOut :=
  (List.range fsp.length).map (fun i =>
    ksi_func (sub_spatial_array fsp (get_params_idx i beta fsp.length))
      (sub_temporal_array ftp (get_params_idx i beta fsp.length)))

/-- Window maximum `FastStray.sub_coeff`:
`max(map(self.coeff.__getitem__, index))`.  Python's `max` raises on an
empty sequence, modelled by `none` (`List.max?`). -/
def sub_coeff (coeff : List Rat) (index : List Nat) : Option Rat :=
  (index.map (fun j => coeff.getD j 0)).max?

/-- Suppression stage `FastStray.update_max_coeff`: window maximum of the
scores, window half-width `gamma`. -/
def update_max_coeff (coeff : List Rat) (gamma : Nat) : List (Option Rat) :=
  (List.range coeff.length).map
    (fun i => sub_coeff coeff (get_params_idx i gamma coeff.length))

/-- Kept indices, `FastStray.simplified_trajectory`:
`np.where(np.array(self.max_coeff) == np.array(self.coeff))[0]`. -/
def compress_index (coeff : List Rat) (gamma : Nat) : List Nat :=
  (List.range coeff.length).filter
    (fun i => (update_max_coeff coeff gamma).getD i none = some (coeff.getD i 0))

/-- Compressed spatial output:
`self.filtering_spatial_position[compress_index, :]`. -/
def simplified_spatial_position (fsp : List (Rat × Rat)) (coeff : List Rat)
    (gamma : Nat) : List (Rat × Rat) :=
  (compress_index coeff gamma).map (fun j => fsp.getD j default)

/-- Compressed temporal output:
`self.filtering_temporal_position[compress_index, :]`. -/
def simplified_temporal_position (ftp : List Rat) (coeff : List Rat)
    (gamma : Nat) : List Rat :=
  (compress_index coeff gamma).map (fun j => ftp.getD j 0)

/-- Reported rate, `FastStray.compression_rate`:
`1. - (len(self.simplified_temporal_position) / len(self.temporal_position))`.
The value `none` models the `ZeroDivisionError` Python raises when the
temporal sequence is empty. -/
def compression_rate (simplified temporal : List Rat) : Option Rat :=
  if temporal.length = 0 then none
  else some (1 - (simplified.length : Rat) / (temporal.length : Rat))

/-- Scores produced by `FastStray.run` up to `update_coeff`, on the
nondegenerate smoothing path (`alpha ≥ 1`). -/
def runKsi (position : List (Rat × Rat × Rat)) (alpha beta : Nat) :
    List KsiOut :=
  update_coeff (moving_averageP position alpha) (temporal_position position) beta

/-- Extraction of an all-finite score list; `none` when any score is an
error, NaN or infinity. -/
def extractVals : List KsiOut → Option (List Rat)
  | [] => some []
  | .val q :: rest => (extractVals rest).map (fun l => q :: l)
  | _ :: _ => none

/-- End-to-end compression rate of `FastStray.run` followed by
`FastStray.compression_rate`, on the all-finite-score path. -/
def runCompressionRate (position : List (Rat × Rat × Rat))
    (alpha beta gamma : Nat) : Option Rat :=
  match extractVals (runKsi position alpha beta) with
  | none => none
  | some coeff =>
      compression_rate
        (simplified_temporal_position (temporal_position position) coeff gamma)
        (temporal_position position)

/-! ### Helper lemmas -/

theorem mem_get_params_idx {j : Nat} (idx value sampleSize : Nat) :
    j ∈ get_params_idx idx value sampleSize ↔
      idx - value ≤ j ∧ j < min (idx + value) sampleSize := by
  unfold get_params_idx
  rw [List.mem_range'_1]
  omega

theorem get_params_idx_sorted (idx value sampleSize : Nat) :
    List.Pairwise (· < ·) (get_params_idx idx value sampleSize) := by
  unfold get_params_idx
  exact List.pairwise_lt_range' _ _

theorem self_mem_get_params_idx {idx value sampleSize : Nat}
    (h1 : 1 ≤ value) (h2 : idx < sampleSize) :
    idx ∈ get_params_idx idx value sampleSize := by
  rw [mem_get_params_idx]
  omega

theorem get_params_idx_ne_nil {idx value sampleSize : Nat}
    (h1 : 1 ≤ value) (h2 : idx < sampleSize) :
    get_params_idx idx value sampleSize ≠ [] :=
  List.ne_nil_of_mem (self_mem_get_params_idx h1 h2)

theorem get_params_idx_mono {v1 v2 : Nat} (idx sampleSize : Nat) (h : v1 ≤ v2) :
    get_params_idx idx v1 sampleSize ⊆ get_params_idx idx v2 sampleSize := by
  intro j hj
  rw [mem_get_params_idx] at hj ⊢
  omega

theorem getD_map_range {α : Type} {n i : Nat} (f : Nat → α) (d : α) (hi : i < n) :
    (((List.range n).map f).getD i d) = f i := by
  rw [List.getD_eq_getElem?_getD, List.getElem?_map, List.getElem?_range hi]
  rfl

theorem max?_eq_some_iff_rat (l : List Rat) (q : Rat) :
    l.max? = some q ↔ q ∈ l ∧ ∀ b ∈ l, b ≤ q := by
  haveI : Std.Antisymm ((· ≤ ·) : Rat → Rat → Prop) :=
    ⟨fun h h' => le_antisymm h h'⟩
  exact List.max?_eq_some_iff (fun a => le_refl a) (fun a b => max_choice a b)
    (fun a b c => max_le_iff)

theorem sub_coeff_eq_some_self_iff {coeff : List Rat} {gamma i : Nat}
    (hg : 1 ≤ gamma) (hi : i < coeff.length) :
    sub_coeff coeff (get_params_idx i gamma coeff.length) = some (coeff.getD i 0) ↔
      ∀ j ∈ get_params_idx i gamma coeff.length, coeff.getD j 0 ≤ coeff.getD i 0 := by
  unfold sub_coeff
  rw [max?_eq_some_iff_rat]
  constructor
  · rintro ⟨-, hub⟩ j hj
    exact hub _ (List.mem_map_of_mem _ hj)
  · intro hub
    refine ⟨List.mem_map_of_mem _ (self_mem_get_params_idx hg hi), ?_⟩
    rintro b hb
    obtain ⟨j, hj, rfl⟩ := List.mem_map.1 hb
    exact hub j hj

theorem mem_compress_index_iff {coeff : List Rat} {gamma i : Nat} (hg : 1 ≤ gamma) :
    i ∈ compress_index coeff gamma ↔
      i < coeff.length ∧
        ∀ j ∈ get_params_idx i gamma coeff.length,
          coeff.getD j 0 ≤ coeff.getD i 0 := by
  unfold compress_index
  rw [List.mem_filter, List.mem_range]
  constructor
  · rintro ⟨hi, hp⟩
    rw [decide_eq_true_iff] at hp
    rw [update_max_coeff, getD_map_range _ _ hi] at hp
    exact ⟨hi, (sub_coeff_eq_some_self_iff hg hi).1 hp⟩
  · rintro ⟨hi, hub⟩
    refine ⟨hi, ?_⟩
    rw [decide_eq_true_iff, update_max_coeff, getD_map_range _ _ hi]
    exact (sub_coeff_eq_some_self_iff hg hi).2 hub

theorem length_extractVals {l : List KsiOut} {v : List Rat}
    (h : extractVals l = some v) : v.length = l.length := by
  induction l generalizing v with
  | nil =>
    simp only [extractVals] at h
    cases h
    rfl
  | cons x rest ih =>
    cases x with
    | val q =>
      simp only [extractVals, Option.map_eq_some'] at h
      obtain ⟨w, hw, rfl⟩ := h
      simp [ih hw]
    | err => simp [extractVals] at h
    | nan => simp [extractVals] at h
    | inf => simp [extractVals] at h

theorem length_update_coeff (fsp : List (Rat × Rat)) (ftp : List Rat) (beta : Nat) :
    (update_coeff fsp ftp beta).length = fsp.length := by
  simp [update_coeff]

theorem length_moving_averageP (position : List (Rat × Rat × Rat)) (alpha : Nat) :
    (moving_averageP position alpha).length = position.length := by
  simp [moving_averageP]

theorem length_temporal_position (position : List (Rat × Rat × Rat)) :
    (temporal_position position).length = position.length := by
  simp [temporal_position]

/-! ### Claims -/

/-- C2: for every center index in `[0, length)`, half-width and length,
the neighborhood window is exactly the ascending integer range
`[max(0, center - half), min(center + half, length))` — the upper bound is
exclusive (no `+ 1` is added) — and the window is always a subset of
`[0, length)`. -/
theorem C2_window_range (center half n : Nat) (_hc : center < n) :
    (∀ j : Nat, j ∈ get_params_idx center half n ↔
        max 0 ((center : Int) - (half : Int)) ≤ (j : Int) ∧
          (j : Int) < min ((center : Int) + (half : Int)) (n : Int))
    ∧ List.Pairwise (· < ·) (get_params_idx center half n)
    ∧ (∀ j ∈ get_params_idx center half n, j < n) := by
  refine ⟨fun j => ?_, get_params_idx_sorted _ _ _, fun j hj => ?_⟩
  · rw [mem_get_params_idx]
    omega
  · rw [mem_get_params_idx] at hj
    omega

/-- Witness for C2 at `window(5, 3, 100)`: the window is `[2, 8)` listed
ascending, and index 8 is excluded. -/
theorem C2_window_range_witness :
    ((∀ j : Nat, j ∈ get_params_idx 5 3 100 ↔
        max 0 ((5 : Int) - (3 : Int)) ≤ (j : Int) ∧
          (j : Int) < min ((5 : Int) + (3 : Int)) (100 : Int))
      ∧ List.Pairwise (· < ·) (get_params_idx 5 3 100)
      ∧ (∀ j ∈ get_params_idx 5 3 100, j < 100))
    ∧ get_params_idx 5 3 100 = [2, 3, 4, 5, 6, 7]
    ∧ 8 ∉ get_params_idx 5 3 100 :=
  ⟨C2_window_range 5 3 100 (by decide), by decide, by decide⟩

/-- C5: at a degenerate scoring neighborhood whose first spatial axis is
constant (3 samples, so at least 2), the scorer produces a NaN score
silently (scipy returns NaN for a constant input and `1/NaN² + 1/r²` is
NaN), instead of the sentinel or explicit error the claim requires. -/
theorem C5_constant_axis_nan :
    ksi_func [(1, 0), (1, 1), (1, 2)] [0, 1, 2] = KsiOut.nan
    ∧ pearsonRsq [1, 1, 1] [0, 1, 2] = PearsonOut.nan := by
  constructor <;> decide

/-- C6 counterexample: on the empty trajectory `compression_rate` raises
`ZeroDivisionError` (modelled by `none`), it does not return 0. -/
theorem C6_rate_counterexample :
    compression_rate [] [] = none ∧ compression_rate [] [] ≠ some 0 := by
  constructor
  · rfl
  · decide

/-- C6 amended: for a nonempty trajectory the rate is
`1 - kept_count / n` (0 when every point is kept); on the empty trajectory
the code raises a division-by-zero error (modelled `none`) rather than
returning 0. -/
theorem C6_rate (simplified temporal : List Rat) (h : temporal ≠ []) :
    compression_rate simplified temporal =
      some (1 - (simplified.length : Rat) / (temporal.length : Rat))
    ∧ (simplified.length = temporal.length →
        compression_rate simplified temporal = some 0)
    ∧ compression_rate simplified [] = none := by
  have hlen : temporal.length ≠ 0 := fun h0 => h (List.length_eq_zero.1 h0)
  refine ⟨by simp [compression_rate, hlen], fun heq => ?_, rfl⟩
  have hq : (temporal.length : Rat) ≠ 0 := Nat.cast_ne_zero.2 hlen
  simp [compression_rate, hlen, heq, div_self hq]

/-- Witness for C6: a run keeping 1 of 2 points reports rate `1/2`, and
the empty temporal sequence yields the error value. -/
theorem C6_rate_witness :
    compression_rate [1] [2, 3] = some (1 / 2)
    ∧ compression_rate [1] [] = none := by
  have h := C6_rate [1] [2, 3] (by decide)
  refine ⟨?_, h.2.2⟩
  rw [h.1]
  norm_num

/-- C8 counterexample: smoothing with half-width 0 is not the identity on
the spatial sequence — at `position = [(1, 2, 0)]` the only window is
empty, so the smoothed entry is the undefined empty-slice mean (NaN in the
code, `none` here), not the original point `(1, 2)`. -/
theorem C8_alpha_zero_counterexample :
    ¬ (moving_average [(1, 2, 0)] 0).1 =
        (spatial_position [(1, 2, 0)]).map some := by
  decide

/-- C8 amended: the window of half-width 0 is empty at every index
(`[i, i)` under the asymmetric window rule), so smoothing with `alpha = 0`
yields the undefined empty-window mean (NaN in the code, `none` here) at
every index instead of the original spatial point. -/
theorem C8_alpha_zero (i n : Nat) (position : List (Rat × Rat × Rat))
    (hi : i < position.length) :
    get_params_idx i 0 n = []
    ∧ (moving_average position 0).1.getD i (some default) = none := by
  have hwin : ∀ m : Nat, get_params_idx i 0 m = [] := by
    intro m
    unfold get_params_idx
    have h0 : min (i + 0) m - (i - 0) = 0 := by omega
    rw [h0, List.range'_zero]
  refine ⟨hwin n, ?_⟩
  show (((List.range position.length).map
      (fun k => mean_position (spatial_position position)
        (get_params_idx k 0 position.length))).getD i (some default)) = none
  rw [getD_map_range _ _ hi, hwin position.length]
  rfl

/-- Witness for C8 amended, at the concrete one-point trajectory. -/
theorem C8_alpha_zero_witness :
    get_params_idx 0 0 1 = []
    ∧ (moving_average [(1, 2, 0)] 0).1.getD 0 (some default) = none :=
  C8_alpha_zero 0 1 [(1, 2, 0)] (by decide)

/-- C3: smoothing returns a spatial sequence of the same length whose
entry `i` is the per-coordinate arithmetic mean of the input spatial
coordinates over `window(i, alpha, n)`, while the temporal sequence is
returned unchanged.  `alpha ≥ 1` is the spec's positive-half-width
configuration; it makes every window nonempty. -/
theorem C3_smoothing (position : List (Rat × Rat × Rat)) (alpha : Nat)
    (ha : 1 ≤ alpha) :
    (moving_average position alpha).1.length = position.length
    ∧ (moving_average position alpha).2 = temporal_position position
    ∧ ∀ i < position.length,
        (moving_average position alpha).1.getD i none =
          some (meanL ((get_params_idx i alpha position.length).map
                  (fun j => ((spatial_position position).getD j default).1)),
                meanL ((get_params_idx i alpha position.length).map
                  (fun j => ((spatial_position position).getD j default).2))) := by
  refine ⟨by simp [moving_average], rfl, fun i hi => ?_⟩
  show (((List.range position.length).map
      (fun k => mean_position (spatial_position position)
        (get_params_idx k alpha position.length))).getD i none) = _
  rw [getD_map_range _ _ hi]
  unfold mean_position
  rw [if_neg]
  simp only [List.isEmpty_iff]
  exact get_params_idx_ne_nil ha hi

unseal Rat.add Rat.mul Rat.inv Rat.sub in
/-- Witness for C3 on a two-point trajectory with `alpha = 1`: entry 1 is
the mean of both spatial points and time is untouched. -/
theorem C3_smoothing_witness :
    (moving_average [(1, 2, 0), (3, 4, 1)] 1).1.length = 2
    ∧ (moving_average [(1, 2, 0), (3, 4, 1)] 1).2 =
        temporal_position [(1, 2, 0), (3, 4, 1)]
    ∧ (moving_average [(1, 2, 0), (3, 4, 1)] 1).1.getD 1 none = some (2, 3) := by
  have h := C3_smoothing [(1, 2, 0), (3, 4, 1)] 1 (by decide)
  refine ⟨h.1, h.2.1, ?_⟩
  rw [h.2.2 1 (by decide)]
  decide

/-- C4: whenever the two per-axis squared Pearson coefficients over the
scoring window are defined and nonzero, `score[i]` is exactly the sum over
the spatial axes of the reciprocal of the squared Pearson correlation
between that axis of the smoothed sequence and raw time on
`window(i, beta, n)`. -/
theorem C4_score_formula (fsp : List (Rat × Rat)) (ftp : List Rat)
    (beta i : Nat) (hi : i < fsp.length) (a b : Rat) (ha : a ≠ 0) (hb : b ≠ 0)
    (hx : pearsonRsq
        ((sub_spatial_array fsp (get_params_idx i beta fsp.length)).map Prod.fst)
        (sub_temporal_array ftp (get_params_idx i beta fsp.length)) =
        PearsonOut.rsq a)
    (hy : pearsonRsq
        ((sub_spatial_array fsp (get_params_idx i beta fsp.length)).map Prod.snd)
        (sub_temporal_array ftp (get_params_idx i beta fsp.length)) =
        PearsonOut.rsq b) :
    (update_coeff fsp ftp beta).getD i KsiOut.err = KsiOut.val (1 / a + 1 / b) := by
  show (((List.range fsp.length).map
      (fun k => ksi_func (sub_spatial_array fsp (get_params_idx k beta fsp.length))
        (sub_temporal_array ftp (get_params_idx k beta fsp.length)))).getD
        i KsiOut.err) = _
  rw [getD_map_range _ _ hi]
  unfold ksi_func
  rw [hx, hy]
  exact if_neg (not_or.2 ⟨ha, hb⟩)

unseal Rat.add Rat.mul Rat.inv Rat.sub in
/-- Witness for C4 on a concrete two-sample window where both axes
correlate perfectly (`r² = 1` each), giving score `1/1 + 1/1 = 2`. -/
theorem C4_score_formula_witness :
    (update_coeff [(0, 0), (1, 2)] [0, 1] 2).getD 0 KsiOut.err =
      KsiOut.val (1 / 1 + 1 / 1) :=
  C4_score_formula [(0, 0), (1, 2)] [0, 1] 2 0 (by decide) 1 1 (by decide)
    (by decide) (by decide) (by decide)

/-- C1: for a run whose scores are all finite, index `i` is in the
compressed output iff `score[i]` equals the maximum score over
`window(i, gamma, n)` (exact equality, so all tied indices are kept —
equivalently, `score[i]` dominates every score in the window), and the
compressed trajectory is exactly the subsequence of the smoothed
trajectory (smoothed spatial coordinates with the original timestamps) at
the kept indices, listed in ascending index order. -/
theorem C1_selection (position : List (Rat × Rat × Rat))
    (alpha beta gamma : Nat) (coeff : List Rat) (hg : 1 ≤ gamma)
    (hc : extractVals (runKsi position alpha beta) = some coeff) :
    coeff.length = position.length
    ∧ (∀ i < position.length,
        (i ∈ compress_index coeff gamma ↔
          sub_coeff coeff (get_params_idx i gamma coeff.length) =
            some (coeff.getD i 0))
        ∧ (i ∈ compress_index coeff gamma ↔
          ∀ j ∈ get_params_idx i gamma coeff.length,
            coeff.getD j 0 ≤ coeff.getD i 0))
    ∧ List.Pairwise (· < ·) (compress_index coeff gamma)
    ∧ simplified_spatial_position (moving_averageP position alpha) coeff gamma =
        (compress_index coeff gamma).map
          (fun j => (moving_averageP position alpha).getD j default)
    ∧ simplified_temporal_position (temporal_position position) coeff gamma =
        (compress_index coeff gamma).map
          (fun j => (temporal_position position).getD j 0) := by
  have hlen : coeff.length = position.length := by
    rw [length_extractVals hc, runKsi, length_update_coeff, length_moving_averageP]
  refine ⟨hlen, fun i hi => ?_, ?_, rfl, rfl⟩
  · have hi' : i < coeff.length := by omega
    refine ⟨?_, ?_⟩
    · rw [mem_compress_index_iff hg, sub_coeff_eq_some_self_iff hg hi']
      exact ⟨fun h => h.2, fun h => ⟨hi', h⟩⟩
    · rw [mem_compress_index_iff hg]
      exact ⟨fun h => h.2, fun h => ⟨hi', h⟩⟩
  · exact List.Pairwise.sublist (List.filter_sublist _)
      (List.pairwise_lt_range _)

unseal Rat.add Rat.mul Rat.inv Rat.sub in
/-- Witness for C1 on the four-point linear trajectory with
`alpha = 1, beta = 2, gamma = 1`: the kept indices are exactly `[0, 1]`,
in order. -/
theorem C1_selection_witness :
    ([2, 56/27, 590/289, 2] : List Rat).length =
      ([(0, 0, 0), (1, 1, 1), (2, 2, 2), (3, 3, 3)] :
        List (Rat × Rat × Rat)).length
    ∧ List.Pairwise (· < ·) (compress_index [2, 56/27, 590/289, 2] 1)
    ∧ compress_index [2, 56/27, 590/289, 2] 1 = [0, 1] := by
  have h := C1_selection [(0, 0, 0), (1, 1, 1), (2, 2, 2), (3, 3, 3)] 1 2 1
    [2, 56/27, 590/289, 2] (by decide) (by decide)
  exact ⟨h.1, h.2.2.1, by decide⟩

theorem getD_update_max_coeff_of_le {coeff : List Rat} {gamma i : Nat}
    (hi : coeff.length ≤ i) :
    (update_max_coeff coeff gamma).getD i none = none := by
  rw [List.getD_eq_getElem?_getD, List.getElem?_eq_none, Option.getD_none]
  simp [update_max_coeff, hi]

/-- C7: for a fixed score sequence, the kept-index set under a larger
`gamma` is a subset of the kept set under a smaller `gamma`, the kept
count is non-increasing in `gamma`, and hence the compression rate is
monotonically non-decreasing in `gamma`. -/
theorem C7_gamma_monotone (coeff ftp : List Rat) (g1 g2 : Nat)
    (hg1 : 1 ≤ g1) (hg : g1 ≤ g2) (hftp : ftp.length = coeff.length)
    (hn : 1 ≤ coeff.length) :
    (∀ i, i ∈ compress_index coeff g2 → i ∈ compress_index coeff g1)
    ∧ (compress_index coeff g2).length ≤ (compress_index coeff g1).length
    ∧ ∃ r1 r2 : Rat,
        compression_rate (simplified_temporal_position ftp coeff g1) ftp = some r1
        ∧ compression_rate (simplified_temporal_position ftp coeff g2) ftp = some r2
        ∧ r1 ≤ r2 := by
  have hg2 : 1 ≤ g2 := le_trans hg1 hg
  have key : ∀ i, ((update_max_coeff coeff g2).getD i none =
      some (coeff.getD i 0)) →
      ((update_max_coeff coeff g1).getD i none = some (coeff.getD i 0)) := by
    intro i hp
    by_cases hi : i < coeff.length
    · rw [update_max_coeff, getD_map_range _ _ hi] at hp
      rw [update_max_coeff, getD_map_range _ _ hi]
      rw [sub_coeff_eq_some_self_iff hg2 hi] at hp
      rw [sub_coeff_eq_some_self_iff hg1 hi]
      exact fun j hj => hp j (get_params_idx_mono _ _ hg hj)
    · rw [getD_update_max_coeff_of_le (by omega)] at hp
      cases hp
  have hsub : ∀ i, i ∈ compress_index coeff g2 → i ∈ compress_index coeff g1 := by
    intro i hi
    rw [mem_compress_index_iff hg2] at hi
    rw [mem_compress_index_iff hg1]
    exact ⟨hi.1, fun j hj => hi.2 j (get_params_idx_mono _ _ hg hj)⟩
  have hsl : List.Sublist (compress_index coeff g2) (compress_index coeff g1) := by
    unfold compress_index
    refine List.monotone_filter_right _ (fun a ha => ?_)
    rw [decide_eq_true_iff] at ha ⊢
    exact key a ha
  have hcount : (compress_index coeff g2).length ≤
      (compress_index coeff g1).length := hsl.length_le
  have hf0 : ftp.length ≠ 0 := by omega
  have hfpos : (0 : Rat) < (ftp.length : Rat) := by
    exact_mod_cast Nat.pos_of_ne_zero hf0
  refine ⟨hsub, hcount,
    1 - ((compress_index coeff g1).length : Rat) / (ftp.length : Rat),
    1 - ((compress_index coeff g2).length : Rat) / (ftp.length : Rat),
    by simp [compression_rate, hf0, simplified_temporal_position],
    by simp [compression_rate, hf0, simplified_temporal_position], ?_⟩
  have hdiv : ((compress_index coeff g2).length : Rat) / (ftp.length : Rat) ≤
      ((compress_index coeff g1).length : Rat) / (ftp.length : Rat) :=
    (div_le_div_iff_of_pos_right hfpos).2 (by exact_mod_cast hcount)
  linarith

/-- Witness for C7 with scores `[1, 2]` and `g1 = 1 ≤ g2 = 2`. -/
theorem C7_gamma_monotone_witness :
    (∀ i, i ∈ compress_index [1, 2] 2 → i ∈ compress_index [1, 2] 1)
    ∧ (compress_index [1, 2] 2).length ≤ (compress_index [1, 2] 1).length
    ∧ ∃ r1 r2 : Rat,
        compression_rate (simplified_temporal_position [0, 1] [1, 2] 1) [0, 1] =
          some r1
        ∧ compression_rate (simplified_temporal_position [0, 1] [1, 2] 2) [0, 1] =
          some r2
        ∧ r1 ≤ r2 :=
  C7_gamma_monotone [1, 2] [0, 1] 1 2 (by decide) (by decide) (by decide)
    (by decide)

/-- C10: with at least one sample, `gamma ≥ 1` and all scores finite
rationals, every index attaining the global maximum score is kept (its
window contains it, so its window maximum equals its own score), the
compressed trajectory is non-empty, and the compression rate is strictly
less than 1. -/
theorem C10_global_max_kept (coeff ftp : List Rat) (gamma : Nat)
    (hg : 1 ≤ gamma) (hn : 1 ≤ coeff.length) (hftp : ftp.length = coeff.length) :
    (∀ i < coeff.length,
      (∀ j < coeff.length, coeff.getD j 0 ≤ coeff.getD i 0) →
        i ∈ compress_index coeff gamma)
    ∧ compress_index coeff gamma ≠ []
    ∧ ∃ r : Rat,
        compression_rate (simplified_temporal_position ftp coeff gamma) ftp =
          some r
        ∧ r < 1 := by
  have hkept : ∀ i < coeff.length,
      (∀ j < coeff.length, coeff.getD j 0 ≤ coeff.getD i 0) →
      i ∈ compress_index coeff gamma := by
    intro i hi hmax
    rw [mem_compress_index_iff hg]
    refine ⟨hi, fun j hj => ?_⟩
    rw [mem_get_params_idx] at hj
    exact hmax j (by omega)
  have hex : ∃ i, i < coeff.length ∧
      ∀ j < coeff.length, coeff.getD j 0 ≤ coeff.getD i 0 := by
    have hne : coeff ≠ [] := by
      intro h
      rw [h] at hn
      exact absurd hn (by decide)
    cases hq : coeff.max? with
    | none => exact absurd (List.max?_eq_none_iff.1 hq) hne
    | some q =>
      obtain ⟨hmem, hub⟩ := (max?_eq_some_iff_rat coeff q).1 hq
      obtain ⟨i, hilt, hiq⟩ := List.mem_iff_getElem.1 hmem
      refine ⟨i, hilt, fun j hj => ?_⟩
      have h1 : coeff.getD j 0 = coeff[j] := by
        rw [List.getD_eq_getElem?_getD, List.getElem?_eq_getElem hj, Option.getD_some]
      have h2 : coeff.getD i 0 = coeff[i] := by
        rw [List.getD_eq_getElem?_getD, List.getElem?_eq_getElem hilt, Option.getD_some]
      rw [h1, h2, hiq]
      exact hub _ (List.getElem_mem hj)
  obtain ⟨i, hilt, himax⟩ := hex
  have hmem : i ∈ compress_index coeff gamma := hkept i hilt himax
  have hne : compress_index coeff gamma ≠ [] := List.ne_nil_of_mem hmem
  have hkpos : 0 < (compress_index coeff gamma).length := List.length_pos.2 hne
  have hf0 : ftp.length ≠ 0 := by omega
  have hfpos : (0 : Rat) < (ftp.length : Rat) := by
    exact_mod_cast Nat.pos_of_ne_zero hf0
  refine ⟨hkept, hne,
    1 - ((compress_index coeff gamma).length : Rat) / (ftp.length : Rat),
    by simp [compression_rate, hf0, simplified_temporal_position], ?_⟩
  have hdiv : 0 < ((compress_index coeff gamma).length : Rat) / (ftp.length : Rat) :=
    div_pos (by exact_mod_cast hkpos) hfpos
  linarith

/-- Witness for C10 with scores `[1, 2]`: index 1 attains the global
maximum and is kept, the output is non-empty, and the rate is below 1. -/
theorem C10_global_max_kept_witness :
    (∀ i < ([1, 2] : List Rat).length,
      (∀ j < ([1, 2] : List Rat).length,
        ([1, 2] : List Rat).getD j 0 ≤ ([1, 2] : List Rat).getD i 0) →
        i ∈ compress_index [1, 2] 1)
    ∧ compress_index [1, 2] 1 ≠ []
    ∧ ∃ r : Rat,
        compression_rate (simplified_temporal_position [5, 6] [1, 2] 1) [5, 6] =
          some r
        ∧ r < 1 :=
  C10_global_max_kept [1, 2] [5, 6] 1 (by decide) (by decide) (by decide)

/-! ### Affine-data facts used for C9 -/

theorem covSumM_cons (mx my x y : Rat) (xs ys : List Rat) :
    covSumM mx my (x :: xs) (y :: ys) =
      (x - mx) * (y - my) + covSumM mx my xs ys := rfl

theorem devSqM_cons (m x : Rat) (xs : List Rat) :
    devSqM m (x :: xs) = (x - m) ^ 2 + devSqM m xs := rfl

theorem sum_map_affine (a c : Rat) (l : List Rat) :
    (l.map (fun t => a * t + c)).sum = a * l.sum + c * l.length := by
  induction l with
  | nil => simp
  | cons x xs ih =>
    simp only [List.map_cons, List.sum_cons, ih, List.length_cons]
    push_cast
    ring

theorem meanL_map_affine (a c : Rat) (l : List Rat) (h : l ≠ []) :
    meanL (l.map (fun t => a * t + c)) = a * meanL l + c := by
  have hpos : 0 < l.length := List.length_pos.2 h
  have h0 : (l.length : Rat) ≠ 0 := by
    exact_mod_cast Nat.pos_iff_ne_zero.1 hpos
  unfold meanL
  rw [sum_map_affine, List.length_map]
  field_simp

theorem covSumM_affine (a c m : Rat) (l : List Rat) :
    covSumM (a * m + c) m (l.map (fun t => a * t + c)) l = a * devSqM m l := by
  induction l with
  | nil => simp [covSumM, devSqM]
  | cons x xs ih =>
    rw [List.map_cons, covSumM_cons, devSqM_cons, ih]
    ring

theorem devSqM_affine (a c m : Rat) (l : List Rat) :
    devSqM (a * m + c) (l.map (fun t => a * t + c)) = a ^ 2 * devSqM m l := by
  induction l with
  | nil => simp [devSqM]
  | cons x xs ih =>
    rw [List.map_cons, devSqM_cons, devSqM_cons, ih]
    ring

theorem allEqHead_iff {l : List Rat} :
    allEqHead l = true ↔ ∀ x ∈ l, x = l.getD 0 0 := by
  simp [allEqHead, List.all_eq_true]

theorem eq_of_allEqHead {l : List Rat} (h : allEqHead l = true) :
    ∀ x ∈ l, ∀ y ∈ l, x = y := by
  intro x hx y hy
  rw [allEqHead_iff] at h
  rw [h x hx, h y hy]

theorem getD_zero_mem {l : List Rat} (h : l ≠ []) : l.getD 0 0 ∈ l := by
  cases l with
  | nil => exact absurd rfl h
  | cons x xs => exact List.mem_cons_self _ _

theorem devSq_ne_zero {l : List Rat} (h : allEqHead l = false) : devSq l ≠ 0 := by
  have hne : l ≠ [] := by
    intro hl
    rw [hl] at h
    exact absurd h (by decide)
  intro h0
  have hznn : ∀ x ∈ l.map (fun x => (x - meanL l) ^ 2), 0 ≤ x := by
    intro x hx
    obtain ⟨y, _, rfl⟩ := List.mem_map.1 hx
    positivity
  have heq : ∀ x ∈ l, x = meanL l := by
    intro x hx
    have hz : (x - meanL l) ^ 2 = 0 :=
      List.all_zero_of_le_zero_le_of_sum_eq_zero hznn h0
        (List.mem_map_of_mem _ hx)
    have h3 : x - meanL l = 0 := by
      nlinarith [sq_nonneg (x - meanL l)]
    linarith
  have htrue : allEqHead l = true := by
    rw [allEqHead_iff]
    intro x hx
    rw [heq x hx, heq _ (getD_zero_mem hne)]
  simp [htrue] at h

theorem pearson_affine (a c : Rat) (ts : List Rat) (ha : a ≠ 0)
    (h2 : 2 ≤ ts.length) (hnc : allEqHead ts = false) :
    pearsonRsq (ts.map (fun t => a * t + c)) ts = PearsonOut.rsq 1 := by
  have hne : ts ≠ [] := by
    intro h
    rw [h] at h2
    exact absurd h2 (by decide)
  have hmapnc : allEqHead (ts.map (fun t => a * t + c)) = false := by
    cases hb : allEqHead (ts.map (fun t => a * t + c)) with
    | false => rfl
    | true =>
      exfalso
      have hpair := eq_of_allEqHead hb
      have htrue : allEqHead ts = true := by
        rw [allEqHead_iff]
        intro x hx
        have h1 := hpair _ (List.mem_map_of_mem _ hx) _
          (List.mem_map_of_mem _ (getD_zero_mem hne))
        exact mul_left_cancel₀ ha (by linarith)
      simp [htrue] at hnc
  unfold pearsonRsq
  rw [List.length_map, if_neg (by omega), hmapnc, hnc]
  simp only [Bool.or_self, Bool.false_eq_true, if_false]
  have hD := devSq_ne_zero hnc
  have hcov : covSum (ts.map (fun t => a * t + c)) ts = a * devSq ts := by
    unfold covSum devSq
    rw [meanL_map_affine _ _ _ hne, covSumM_affine]
  have hdev : devSq (ts.map (fun t => a * t + c)) = a ^ 2 * devSq ts := by
    unfold devSq
    rw [meanL_map_affine _ _ _ hne, devSqM_affine]
  rw [hcov, hdev]
  have hnz : a ^ 2 * devSq ts * devSq ts ≠ 0 :=
    mul_ne_zero (mul_ne_zero (pow_ne_zero 2 ha) hD) hD
  rw [(by ring : (a * devSq ts) ^ 2 = a ^ 2 * devSq ts * devSq ts),
    div_self hnz]

theorem length_get_params_idx (idx value sampleSize : Nat) :
    (get_params_idx idx value sampleSize).length =
      min (idx + value) sampleSize - (idx - value) := by
  simp [get_params_idx]

theorem two_le_window_length {i beta n : Nat} (hb : 2 ≤ beta) (hn : 2 ≤ n)
    (hi : i < n) : 2 ≤ (get_params_idx i beta n).length := by
  rw [length_get_params_idx]
  omega

theorem window_ts_not_const {ftp : List Rat} {i beta n : Nat}
    (hb : 2 ≤ beta) (hn : 2 ≤ n) (hi : i < n)
    (ht : ∀ j < n - 1, ftp.getD j 0 < ftp.getD (j + 1) 0) :
    allEqHead (sub_temporal_array ftp (get_params_idx i beta n)) = false := by
  cases hb2 : allEqHead (sub_temporal_array ftp (get_params_idx i beta n)) with
  | false => rfl
  | true =>
    exfalso
    have hl2 : 2 ≤ (get_params_idx i beta n).length :=
      two_le_window_length hb hn hi
    rw [length_get_params_idx] at hl2
    have hmem1 : i - beta ∈ get_params_idx i beta n := by
      rw [mem_get_params_idx]
      omega
    have hmem2 : i - beta + 1 ∈ get_params_idx i beta n := by
      rw [mem_get_params_idx]
      omega
    have hlt : ftp.getD (i - beta) 0 < ftp.getD (i - beta + 1) 0 :=
      ht (i - beta) (by omega)
    have heq := eq_of_allEqHead hb2 _ (List.mem_map_of_mem _ hmem1) _
      (List.mem_map_of_mem _ hmem2)
    exact absurd heq (ne_of_lt hlt)

theorem window_axis (fsp : List (Rat × Rat)) (ftp : List Rat) {i beta : Nat}
    (f : Rat × Rat → Rat) (a c : Rat)
    (hx : ∀ j < fsp.length, f (fsp.getD j default) = a * ftp.getD j 0 + c) :
    (sub_spatial_array fsp (get_params_idx i beta fsp.length)).map f =
      (sub_temporal_array ftp (get_params_idx i beta fsp.length)).map
        (fun t => a * t + c) := by
  unfold sub_spatial_array sub_temporal_array
  rw [List.map_map, List.map_map]
  apply List.map_congr_left
  intro j hj
  rw [mem_get_params_idx] at hj
  simp only [Function.comp]
  exact hx j (by omega)

unseal Rat.add Rat.mul Rat.inv Rat.sub in
/-- C9 counterexample: on the perfectly linear noise-free trajectory
`(t, t, t)` for `t = 0, 1, 2, 3` with `alpha = 1, beta = 2, gamma = 1`,
boundary-clipped smoothing destroys the exact linearity: the scoring
neighborhood `[0, 3)` has squared correlation `27/28 ≠ 1`, only indices
`0` and `1` are kept, and the compression rate is `1/2`, not `0`. -/
theorem C9_linear_counterexample :
    runCompressionRate [(0, 0, 0), (1, 1, 1), (2, 2, 2), (3, 3, 3)] 1 2 1 =
      some (1 / 2)
    ∧ runCompressionRate [(0, 0, 0), (1, 1, 1), (2, 2, 2), (3, 3, 3)] 1 2 1 ≠
      some 0
    ∧ pearsonRsq [0, 1/2, 3/2] [0, 1, 2] = PearsonOut.rsq (27/28)
    ∧ (27/28 : Rat) ≠ 1 := by
  refine ⟨by decide, by decide, by decide, by decide⟩

/-- C9 amended: if the smoothed spatial coordinates are exact affine
functions of raw time with nonzero slope per axis (which holds for the raw
coordinates of a linear trajectory but is not preserved by the
boundary-clipped smoothing stage), the timestamps are strictly increasing,
and every scoring neighborhood has at least 2 samples (`beta ≥ 2, n ≥ 2`),
then every neighborhood squared Pearson correlation is exactly 1, every
score is the identical minimal value `2`, every index is its own local
maximum, all `n` points are kept and the compression rate is 0. -/
theorem C9_affine_scores (fsp : List (Rat × Rat)) (ftp : List Rat)
    (beta gamma : Nat) (a c a2 c2 : Rat)
    (hlen : ftp.length = fsp.length) (hn : 2 ≤ fsp.length)
    (hb : 2 ≤ beta) (hg : 1 ≤ gamma) (ha : a ≠ 0) (ha2 : a2 ≠ 0)
    (hx : ∀ j < fsp.length, (fsp.getD j default).1 = a * ftp.getD j 0 + c)
    (hy : ∀ j < fsp.length, (fsp.getD j default).2 = a2 * ftp.getD j 0 + c2)
    (ht : ∀ j < fsp.length - 1, ftp.getD j 0 < ftp.getD (j + 1) 0) :
    (∀ i < fsp.length,
      pearsonRsq
          ((sub_spatial_array fsp (get_params_idx i beta fsp.length)).map
            Prod.fst)
          (sub_temporal_array ftp (get_params_idx i beta fsp.length)) =
        PearsonOut.rsq 1
      ∧ pearsonRsq
          ((sub_spatial_array fsp (get_params_idx i beta fsp.length)).map
            Prod.snd)
          (sub_temporal_array ftp (get_params_idx i beta fsp.length)) =
        PearsonOut.rsq 1)
    ∧ update_coeff fsp ftp beta = List.replicate fsp.length (KsiOut.val 2)
    ∧ compress_index (List.replicate fsp.length ((2 : Rat))) gamma =
        List.range fsp.length
    ∧ compression_rate
        (simplified_temporal_position ftp
          (List.replicate fsp.length ((2 : Rat))) gamma) ftp = some 0 := by
  have hax : ∀ i < fsp.length,
      pearsonRsq
          ((sub_spatial_array fsp (get_params_idx i beta fsp.length)).map
            Prod.fst)
          (sub_temporal_array ftp (get_params_idx i beta fsp.length)) =
        PearsonOut.rsq 1
      ∧ pearsonRsq
          ((sub_spatial_array fsp (get_params_idx i beta fsp.length)).map
            Prod.snd)
          (sub_temporal_array ftp (get_params_idx i beta fsp.length)) =
        PearsonOut.rsq 1 := by
    intro i hi
    have h2w : 2 ≤ (get_params_idx i beta fsp.length).length :=
      two_le_window_length hb hn hi
    have hts2 : 2 ≤
        (sub_temporal_array ftp (get_params_idx i beta fsp.length)).length := by
      rw [sub_temporal_array, List.length_map]
      exact h2w
    have hnc := window_ts_not_const hb hn hi ht
    constructor
    · rw [window_axis fsp ftp Prod.fst a c hx]
      exact pearson_affine a c _ ha hts2 hnc
    · rw [window_axis fsp ftp Prod.snd a2 c2 hy]
      exact pearson_affine a2 c2 _ ha2 hts2 hnc
  have hcoeff : update_coeff fsp ftp beta =
      List.replicate fsp.length (KsiOut.val 2) := by
    rw [List.eq_replicate_iff]
    refine ⟨by simp [update_coeff], fun b hb' => ?_⟩
    rw [update_coeff] at hb'
    obtain ⟨i, hi, rfl⟩ := List.mem_map.1 hb'
    rw [List.mem_range] at hi
    obtain ⟨h1, h2⟩ := hax i hi
    unfold ksi_func
    rw [h1, h2]
    show (if (1 : Rat) = 0 ∨ (1 : Rat) = 0 then KsiOut.inf
        else KsiOut.val (1 / 1 + 1 / 1)) = KsiOut.val 2
    rw [if_neg (not_or.2 ⟨one_ne_zero, one_ne_zero⟩)]
    norm_num
  have hci : compress_index (List.replicate fsp.length ((2 : Rat))) gamma =
      List.range fsp.length := by
    have hlenrep : (List.replicate fsp.length ((2 : Rat))).length = fsp.length :=
      List.length_replicate _ _
    unfold compress_index
    rw [hlenrep]
    apply List.filter_eq_self.2
    intro i hir
    rw [List.mem_range] at hir
    rw [decide_eq_true_iff]
    have hgetD : (List.replicate fsp.length ((2 : Rat))).getD i 0 = 2 := by
      rw [List.getD_eq_getElem?_getD, List.getElem?_replicate_of_lt hir,
        Option.getD_some]
    rw [update_max_coeff, hlenrep, getD_map_range _ _ hir, hgetD]
    unfold sub_coeff
    have hmap : (get_params_idx i gamma fsp.length).map
        (fun j => (List.replicate fsp.length ((2 : Rat))).getD j 0) =
        List.replicate (get_params_idx i gamma fsp.length).length 2 := by
      rw [List.eq_replicate_iff]
      refine ⟨by simp, fun b hb' => ?_⟩
      obtain ⟨j, hj, rfl⟩ := List.mem_map.1 hb'
      rw [mem_get_params_idx] at hj
      rw [List.getD_eq_getElem?_getD, List.getElem?_replicate_of_lt (by omega),
        Option.getD_some]
    rw [hmap]
    exact List.max?_replicate_of_pos (max_self 2)
      (List.length_pos.2 (get_params_idx_ne_nil hg hir))
  have hrate : compression_rate
      (simplified_temporal_position ftp
        (List.replicate fsp.length ((2 : Rat))) gamma) ftp = some 0 := by
    have hslen : (simplified_temporal_position ftp
        (List.replicate fsp.length ((2 : Rat))) gamma).length = fsp.length := by
      simp [simplified_temporal_position, hci]
    have hf0 : ftp.length ≠ 0 := by omega
    unfold compression_rate
    rw [if_neg hf0, hslen, hlen]
    have hq : (fsp.length : Rat) ≠ 0 := by
      exact_mod_cast (by omega : fsp.length ≠ 0)
    rw [div_self hq]
    norm_num
  exact ⟨hax, hcoeff, hci, hrate⟩

unseal Rat.add Rat.mul Rat.inv Rat.sub in
/-- Witness for C9 amended: smoothed data already affine in time
(`x = t`, `y = 2t`) with `beta = 2, gamma = 1`: all four scores equal 2,
all indices are kept and the rate is 0. -/
theorem C9_affine_scores_witness :
    update_coeff [(0, 0), (1, 2), (2, 4), (3, 6)] [0, 1, 2, 3] 2 =
      List.replicate 4 (KsiOut.val 2)
    ∧ compress_index (List.replicate 4 ((2 : Rat))) 1 = List.range 4
    ∧ compression_rate
        (simplified_temporal_position [0, 1, 2, 3]
          (List.replicate 4 ((2 : Rat))) 1) [0, 1, 2, 3] = some 0 := by
  have h := C9_affine_scores [(0, 0), (1, 2), (2, 4), (3, 6)] [0, 1, 2, 3]
    2 1 1 0 2 0 (by decide) (by decide) (by decide) (by decide) (by decide)
    (by decide) (by decide) (by decide) (by decide)
  exact ⟨h.2.1, h.2.2.1, h.2.2.2⟩

end FastStray
